import Mathlib

/-!
Verification of a minimal pattern-matching engine (lifetimekata finale
exercise).  The engine compiles a pattern string into a token sequence
(`Matcher.new`) and matches candidate strings against it token by token
(`Matcher.match_string`), tracking the best partial match in the mutable
counter `most_tokens_matched`.

Strings are embedded at the character level as `List Char`: Rust `&str`
values are valid UTF-8 and every slice the source takes lies on a character
boundary, so byte-index slicing in the source corresponds to `take`/`drop`
at character positions here (a byte index returned by `str::find` on a
1-byte needle corresponds to the character position of that occurrence).
The `Checked` variants additionally model every partial operation of the
source (`unwrap`, out-of-range slicing) with an explicit error branch, so
that panic-freedom is a provable statement.
-/

/-- The token type of the engine: literal text, a group of alternatives,
or a single-character wildcard.  Mirrors `enum MatcherToken` in the source. -/
inductive MatcherToken where
  | RawText : List Char → MatcherToken
  | OneOfText : List (List Char) → MatcherToken
  | WildCard : MatcherToken
deriving DecidableEq

/-- `str::find(char)` at the character level: the position of the first
occurrence of `c`, if any.  (For the 1-byte needles `'.'`, `'('`, `')'` the
byte index returned by the source equals the character position.) -/
def findChar (c : Char) : List Char → Option Nat
  | [] => none
  | d :: rest => if d = c then some 0 else (findChar c rest).map (· + 1)

/-- `find(c).unwrap_or(len)` from the source's raw-text branch. -/
def findCharD (c : Char) (s : List Char) : Nat :=
  (findChar c s).getD s.length

/-- `str::split('|')` at the character level: Rust's `split` on an empty
string yields one empty piece, and adjacent separators yield empty pieces. -/
def splitPipe : List Char → List (List Char)
  | [] => [[]]
  | c :: rest =>
    if c = '|' then [] :: splitPipe rest
    else
      match splitPipe rest with
      | [] => [[c]]
      | a :: as => (c :: a) :: as

/-- `str::starts_with(str)` at the character level. -/
def isPrefixL : List Char → List Char → Bool
  | [], _ => true
  | _ :: _, [] => false
  | d :: pre, c :: s => d == c && isPrefixL pre s

/-- The scanning loop of `Matcher::new`, with explicit fuel (one unit per
iteration; every iteration consumes at least one character, so fuel equal to
the length of the text always suffices and the 0-fuel case is unreachable
from `newTokens`).
Branches, in source order: end of text; `.` emits `WildCard`; `(` finds the
next `)` (failing with `None` if there is none), emits `OneOfText` of the
enclosed text split on `|`; otherwise a raw segment up to the next `.` or
`(` (or end of text) is emitted as `RawText`. -/
def newTokensGo : Nat → List Char → Option (List MatcherToken)
  | _, [] => some []
  | 0, _ :: _ => none
  | fuel + 1, c :: rest =>
    if c = '.' then
      (newTokensGo fuel rest).map (fun ts => MatcherToken.WildCard :: ts)
    else if c = '(' then
      match findChar ')' (c :: rest) with
      | none => none
      | some fc =>
        let options := (c :: rest).take fc
        let leftover := (c :: rest).drop fc
        (newTokensGo fuel (leftover.drop 1)).map
          (fun ts => MatcherToken.OneOfText (splitPipe (options.drop 1)) :: ts)
    else
      let firstWc := findCharD '.' (c :: rest)
      let firstOneOf := findCharD '(' (c :: rest)
      let firstToken := min firstWc firstOneOf
      (newTokensGo fuel ((c :: rest).drop firstToken)).map
        (fun ts => MatcherToken.RawText ((c :: rest).take firstToken) :: ts)

/-- The token sequence produced by `Matcher::new` for a pattern text, or
`none` on a malformed pattern. -/
def newTokens (s : List Char) : Option (List MatcherToken) :=
  newTokensGo s.length s

/-- The `Matcher` struct: pattern text, compiled tokens, and the mutable
best-match counter. -/
structure Matcher where
  text : List Char
  tokens : List MatcherToken
  most_tokens_matched : Nat
deriving DecidableEq

/-- `Matcher::new`: parse the pattern text; the counter starts at 0. -/
def Matcher.new (text : List Char) : Option Matcher :=
  (newTokens text).map
    (fun tokens => { text := text, tokens := tokens, most_tokens_matched := 0 })

/-- The token loop of `Matcher::match_string`: stop on an exhausted
candidate; `WildCard` consumes one whole character; `OneOfText` consumes the
first alternative that is a prefix of the remaining candidate, stopping if
none is; `RawText` consumes its literal if it is a prefix, stopping
otherwise. -/
def matchLoop : List MatcherToken → List Char → List (MatcherToken × List Char)
  | [], _ => []
  | token :: ts, unmatched =>
    if unmatched.isEmpty then []
    else
      match token with
      | MatcherToken.WildCard =>
        match unmatched with
        | [] => []
        | c :: rest => (token, [c]) :: matchLoop ts rest
      | MatcherToken.OneOfText options =>
        match options.find? (fun start => isPrefixL start unmatched) with
        | some start =>
          (token, unmatched.take start.length) :: matchLoop ts (unmatched.drop start.length)
        | none => []
      | MatcherToken.RawText text =>
        if isPrefixL text unmatched then
          (token, unmatched.take text.length) :: matchLoop ts (unmatched.drop text.length)
        else []

/-- `Matcher::match_string`: run the token loop, then update the counter if
this call matched more tokens than any previous one.  The mutation of
`self` is modelled by returning the updated `Matcher` alongside the result
list. -/
def Matcher.match_string (m : Matcher) (s : List Char) :
    List (MatcherToken × List Char) × Matcher :=
  let answer := matchLoop m.tokens s
  (answer,
    if answer.length > m.most_tokens_matched then
      { m with most_tokens_matched := answer.length }
    else m)

/-- UTF-8 byte length of a character-level string. -/
def utf8Len (s : List Char) : Nat :=
  (s.map Char.utf8Size).sum

/-- The scanning loop of `Matcher::new` with every partial operation of the
source guarded: slicing out of range (`unmatched[1..]`, `split_at(fc)`,
`options[1..]`, `leftover[1..]`, `unmatched[..first_token]`,
`unmatched[first_token..]`) returns the outer `none` (a panic) instead of
being silently total.  The inner `Option` is the source's own `?` failure. -/
def newTokensCheckedGo : Nat → List Char → Option (Option (List MatcherToken))
  | _, [] => some (some [])
  | 0, _ :: _ => some none
  | fuel + 1, c :: rest =>
    if c = '.' then
      if 1 ≤ (c :: rest).length then
        (newTokensCheckedGo fuel rest).map
          (Option.map (fun ts => MatcherToken.WildCard :: ts))
      else none
    else if c = '(' then
      match findChar ')' (c :: rest) with
      | none => some none
      | some fc =>
        if fc ≤ (c :: rest).length ∧ 1 ≤ ((c :: rest).take fc).length ∧
            1 ≤ ((c :: rest).drop fc).length then
          (newTokensCheckedGo fuel (((c :: rest).drop fc).drop 1)).map
            (Option.map (fun ts =>
              MatcherToken.OneOfText (splitPipe (((c :: rest).take fc).drop 1)) :: ts))
        else none
    else
      let firstToken := min (findCharD '.' (c :: rest)) (findCharD '(' (c :: rest))
      if firstToken ≤ (c :: rest).length then
        (newTokensCheckedGo fuel ((c :: rest).drop firstToken)).map
          (Option.map (fun ts => MatcherToken.RawText ((c :: rest).take firstToken) :: ts))
      else none

/-- `newTokens` with guarded partial operations; `none` means a panic. -/
def newTokensChecked (s : List Char) : Option (Option (List MatcherToken)) :=
  newTokensCheckedGo s.length s

/-- The token loop of `Matcher::match_string` with every partial operation
guarded: the `chars().next().unwrap()` of the wildcard branch and each
slice (`unmatched[..offset]`, `unmatched[offset..]`, `split_at(len)`)
returns `none` (a panic) when its precondition fails. -/
def matchLoopChecked : List MatcherToken → List Char → Option (List (MatcherToken × List Char))
  | [], _ => some []
  | token :: ts, unmatched =>
    if unmatched.isEmpty then some []
    else
      match token with
      | MatcherToken.WildCard =>
        match unmatched with
        | [] => none
        | c :: rest =>
          if 1 ≤ (c :: rest).length then
            (matchLoopChecked ts rest).map (fun l => (token, [c]) :: l)
          else none
      | MatcherToken.OneOfText options =>
        match options.find? (fun start => isPrefixL start unmatched) with
        | some start =>
          if start.length ≤ unmatched.length then
            (matchLoopChecked ts (unmatched.drop start.length)).map
              (fun l => (token, unmatched.take start.length) :: l)
          else none
        | none => some []
      | MatcherToken.RawText text =>
        if isPrefixL text unmatched then
          if text.length ≤ unmatched.length then
            (matchLoopChecked ts (unmatched.drop text.length)).map
              (fun l => (token, unmatched.take text.length) :: l)
          else none
        else some []

/-- C2: compiling the pattern "abc(d|e|f)." produces exactly the token
sequence [RawText "abc", OneOf ["d","e","f"], WildCard], in that order. -/
theorem compile_example_tokens :
    (Matcher.new ("abc(d|e|f).".data)).map Matcher.tokens =
      some [MatcherToken.RawText ("abc".data),
            MatcherToken.OneOfText [("d".data), ("e".data), ("f".data)],
            MatcherToken.WildCard] := by
  decide

/-- C3: on the freshly compiled pattern "abc(d|e|f)." (counter 0), matching
"abcge" yields the single pair (RawText "abc", "abc") and sets the counter
to 1; a second call on the updated matcher with "abcd💪" yields the three
pairs (RawText "abc","abc"), (OneOf ["d","e","f"],"d"), (WildCard,"💪") and
raises the counter to 3; the wildcard consumed the single character '💪'
whose full encoded width is 4 bytes. -/
theorem match_example_trace :
    (Matcher.new ("abc(d|e|f).".data)).map
        (fun m => m.most_tokens_matched) = some 0 ∧
    (Matcher.new ("abc(d|e|f).".data)).map
        (fun m => (m.match_string ("abcge".data)).1) =
      some [(MatcherToken.RawText ("abc".data), "abc".data)] ∧
    (Matcher.new ("abc(d|e|f).".data)).map
        (fun m => (m.match_string ("abcge".data)).2.most_tokens_matched) = some 1 ∧
    (Matcher.new ("abc(d|e|f).".data)).map
        (fun m => ((m.match_string ("abcge".data)).2.match_string ("abcd💪".data)).1) =
      some [(MatcherToken.RawText ("abc".data), "abc".data),
            (MatcherToken.OneOfText [("d".data), ("e".data), ("f".data)], "d".data),
            (MatcherToken.WildCard, "💪".data)] ∧
    (Matcher.new ("abc(d|e|f).".data)).map
        (fun m =>
          ((m.match_string ("abcge".data)).2.match_string ("abcd💪".data)).2.most_tokens_matched) =
      some 3 ∧
    ("💪".data).length = 1 ∧ utf8Len ("💪".data) = 4 := by
  decide

lemma matchLoop_nil_candidate (ts : List MatcherToken) : matchLoop ts [] = [] := by
  cases ts <;> simp [matchLoop]

lemma isPrefixL_iff : ∀ (pre s : List Char), isPrefixL pre s = true ↔ pre <+: s := by
  intro pre
  induction pre with
  | nil => intro s; simp [isPrefixL]
  | cons d pre ih =>
    intro s
    cases s with
    | nil => simp [isPrefixL, List.prefix_nil]
    | cons c s => simp [isPrefixL, List.cons_prefix_cons, ih s, and_comm]

/-- C7: matching the empty candidate string against any matcher yields an
empty result sequence, whatever the token sequence is. -/
theorem match_empty_candidate (m : Matcher) : (m.match_string []).1 = [] := by
  simp [Matcher.match_string, matchLoop_nil_candidate]

/-- C1 counterexample: the pattern ")(" contains a `)` (out of order,
before its unmatched trailing `(`), yet `Matcher::new` rejects it, contrary
to the claim that such patterns are accepted. -/
theorem compile_rejects_close_then_open :
    Matcher.new (")(".data) = none ∧ ')' ∈ ")(".data := by
  decide

/-- C5: the counter is 0 on a freshly compiled matcher, and after every
match call it equals the maximum of its previous value and the number of
result pairs produced; in particular it never decreases. -/
theorem most_tokens_matched_update :
    (∀ (s : List Char) (m : Matcher), Matcher.new s = some m →
      m.most_tokens_matched = 0) ∧
    (∀ (m : Matcher) (c : List Char),
      (m.match_string c).2.most_tokens_matched =
        max m.most_tokens_matched (m.match_string c).1.length ∧
      m.most_tokens_matched ≤ (m.match_string c).2.most_tokens_matched) := by
  constructor
  · intro s m h
    cases hn : newTokens s <;> simp [Matcher.new, hn] at h
    rw [← h]
  · intro m c
    simp only [Matcher.match_string]
    split <;> simp <;> omega

theorem most_tokens_matched_update_witness :
    ({ text := [], tokens := [], most_tokens_matched := 0 } : Matcher).most_tokens_matched = 0 :=
  most_tokens_matched_update.1 []
    { text := [], tokens := [], most_tokens_matched := 0 } (by decide)

/-- C6: a `WildCard` token always matches a non-empty remaining candidate,
consuming exactly one whole character (whose full encoded width is that
character's UTF-8 size), and matching continues with the next token. -/
theorem wildcard_consumes_one_char (ts : List MatcherToken) (u : List Char)
    (hne : u ≠ []) :
    ∃ c rest, u = c :: rest ∧
      matchLoop (MatcherToken.WildCard :: ts) u =
        (MatcherToken.WildCard, [c]) :: matchLoop ts rest ∧
      utf8Len [c] = c.utf8Size ∧ ([c] : List Char).length = 1 := by
  cases u with
  | nil => exact absurd rfl hne
  | cons c rest =>
    refine ⟨c, rest, rfl, ?_, ?_, rfl⟩
    · simp [matchLoop]
    · simp [utf8Len]

theorem wildcard_consumes_one_char_witness :
    (['💪'] : List Char) ≠ [] ∧
    ∃ c rest, (['💪'] : List Char) = c :: rest ∧
      matchLoop (MatcherToken.WildCard :: []) ['💪'] =
        (MatcherToken.WildCard, [c]) :: matchLoop [] rest ∧
      utf8Len [c] = c.utf8Size ∧ ([c] : List Char).length = 1 :=
  ⟨by decide, wildcard_consumes_one_char [] ['💪'] (by decide)⟩

lemma find?_first {α : Type} (p : α → Bool) (l : List α) :
    (l.find? p = none ∧ ∀ x ∈ l, p x = false) ∨
    ∃ (i : Nat) (h : i < l.length), l.find? p = some (l.get ⟨i, h⟩) ∧
      p (l.get ⟨i, h⟩) = true ∧
      ∀ j (hj : j < i), p (l.get ⟨j, Nat.lt_trans hj h⟩) = false := by
  induction l with
  | nil => left; exact ⟨rfl, by simp⟩
  | cons a l ih =>
    cases hpa : p a with
    | true =>
      right
      refine ⟨0, by simp, ?_, by simpa using hpa, ?_⟩
      · simpa using List.find?_cons_of_pos l hpa
      · intro j hj; exact absurd hj (Nat.not_lt_zero j)
    | false =>
      rcases ih with ⟨hnone, hall⟩ | ⟨i, h, hf, hp, hlt⟩
      · left
        constructor
        · rw [List.find?_cons_of_neg l (by simp [hpa]), hnone]
        · intro x hx
          rcases List.mem_cons.mp hx with rfl | hx
          · exact hpa
          · exact hall x hx
      · right
        refine ⟨i + 1, by simpa using h, ?_, by simpa using hp, ?_⟩
        · rw [List.find?_cons_of_neg l (by simp [hpa])]
          simpa using hf
        · intro j hj
          cases j with
          | zero => simpa using hpa
          | succ j => simpa using hlt j (Nat.lt_of_succ_lt_succ hj)

/-- C4: when the match loop reaches a `OneOf` token with a non-empty
remaining candidate, either some alternative is a prefix of the remaining
candidate — then the first such alternative (in declared order) is consumed
and matching continues with the next token — or no alternative is a prefix
and the loop returns the empty tail: pairs already produced by earlier
tokens are kept as-is, no later token is attempted, and no backtracking
into earlier tokens occurs. -/
theorem oneOf_first_alternative (opts : List (List Char))
    (ts : List MatcherToken) (u : List Char) (hne : u ≠ []) :
    (∃ (i : Nat) (h : i < opts.length),
        opts.get ⟨i, h⟩ <+: u ∧
        (∀ j (hj : j < i), ¬ opts.get ⟨j, Nat.lt_trans hj h⟩ <+: u) ∧
        matchLoop (MatcherToken.OneOfText opts :: ts) u =
          (MatcherToken.OneOfText opts, u.take (opts.get ⟨i, h⟩).length) ::
            matchLoop ts (u.drop (opts.get ⟨i, h⟩).length)) ∨
    ((∀ a ∈ opts, ¬ a <+: u) ∧
        matchLoop (MatcherToken.OneOfText opts :: ts) u = []) := by
  obtain ⟨c, rest, rfl⟩ : ∃ c rest, u = c :: rest := by
    cases u with
    | nil => exact absurd rfl hne
    | cons c rest => exact ⟨c, rest, rfl⟩
  rcases find?_first (fun start => isPrefixL start (c :: rest)) opts with
    ⟨hnone, hall⟩ | ⟨i, h, hf, hp, hlt⟩
  · right
    constructor
    · intro a ha
      rw [← isPrefixL_iff]
      simp [hall a ha]
    · simp [matchLoop, hnone]
  · left
    refine ⟨i, h, (isPrefixL_iff _ _).mp hp, ?_, ?_⟩
    · intro j hj
      rw [← isPrefixL_iff]
      simpa using hlt j hj
    · simp [matchLoop, hf]

theorem oneOf_first_alternative_witness :
    (['a', 'c'] : List Char) ≠ [] ∧
    ((∃ (i : Nat) (h : i < ([['b'], ['a']] : List (List Char)).length),
        ([['b'], ['a']] : List (List Char)).get ⟨i, h⟩ <+: ['a', 'c'] ∧
        (∀ j (hj : j < i),
          ¬ ([['b'], ['a']] : List (List Char)).get ⟨j, Nat.lt_trans hj h⟩ <+: ['a', 'c']) ∧
        matchLoop (MatcherToken.OneOfText [['b'], ['a']] :: [MatcherToken.WildCard]) ['a', 'c'] =
          (MatcherToken.OneOfText [['b'], ['a']],
            (['a', 'c'] : List Char).take (([['b'], ['a']] : List (List Char)).get ⟨i, h⟩).length) ::
            matchLoop [MatcherToken.WildCard]
              ((['a', 'c'] : List Char).drop (([['b'], ['a']] : List (List Char)).get ⟨i, h⟩).length)) ∨
     ((∀ a ∈ ([['b'], ['a']] : List (List Char)), ¬ a <+: ['a', 'c']) ∧
        matchLoop (MatcherToken.OneOfText [['b'], ['a']] :: [MatcherToken.WildCard]) ['a', 'c'] = [])) :=
  ⟨by decide, oneOf_first_alternative [['b'], ['a']] [MatcherToken.WildCard] ['a', 'c'] (by decide)⟩

lemma matchLoop_flatten (ts : List MatcherToken) :
    ∀ u : List Char, ((matchLoop ts u).map Prod.snd).flatten <+: u := by
  induction ts with
  | nil =>
    intro u
    simp [matchLoop]
  | cons t ts ih =>
    intro u
    cases u with
    | nil => simp [matchLoop_nil_candidate]
    | cons c rest =>
      cases t with
      | WildCard =>
        obtain ⟨r, hr⟩ := ih rest
        exact ⟨r, by simp [matchLoop, hr]⟩
      | OneOfText options =>
        rcases hf : options.find? (fun start => isPrefixL start (c :: rest)) with _ | start
        · simp [matchLoop, hf]
        · obtain ⟨r, hr⟩ := ih ((c :: rest).drop start.length)
          refine ⟨r, ?_⟩
          simp only [matchLoop, hf, List.isEmpty_cons, Bool.false_eq_true, if_false,
            List.map_cons, List.flatten_cons, List.append_assoc]
          rw [hr, List.take_append_drop]
      | RawText text =>
        by_cases hp : isPrefixL text (c :: rest) = true
        · obtain ⟨r, hr⟩ := ih ((c :: rest).drop text.length)
          refine ⟨r, ?_⟩
          simp only [matchLoop, hp, List.isEmpty_cons, Bool.false_eq_true, if_false, if_true,
            List.map_cons, List.flatten_cons, List.append_assoc]
          rw [hr, List.take_append_drop]
        · simp [matchLoop, hp]

/-- C8: concatenating the matched substrings of a match result, in order,
yields a prefix of the candidate string, and its length is the sum of the
lengths of the consumed substrings. -/
theorem match_result_round_trip (m : Matcher) (u : List Char) :
    ((m.match_string u).1.map Prod.snd).flatten <+: u ∧
    (((m.match_string u).1.map Prod.snd).flatten).length =
      ((m.match_string u).1.map (fun p => p.2.length)).sum := by
  constructor
  · simpa [Matcher.match_string] using matchLoop_flatten m.tokens u
  · simp only [List.length_flatten, List.map_map]
    rfl

lemma findChar_some_lt {c : Char} :
    ∀ {s : List Char} {i : Nat}, findChar c s = some i → i < s.length := by
  intro s
  induction s with
  | nil => intro i h; simp [findChar] at h
  | cons d rest ih =>
    intro i h
    by_cases hd : d = c
    · simp [findChar, hd] at h
      simp only [List.length_cons]
      omega
    · simp [findChar, hd] at h
      obtain ⟨a, ha, rfl⟩ := h
      simpa using Nat.succ_lt_succ (ih ha)

lemma findChar_some_drop {c : Char} :
    ∀ {s : List Char} {i : Nat}, findChar c s = some i → ∃ t, s.drop i = c :: t := by
  intro s
  induction s with
  | nil => intro i h; simp [findChar] at h
  | cons d rest ih =>
    intro i h
    by_cases hd : d = c
    · simp [findChar, hd] at h
      exact ⟨rest, by rw [← h, hd]; rfl⟩
    · simp [findChar, hd] at h
      obtain ⟨a, ha, rfl⟩ := h
      simpa using ih ha

lemma findChar_none {c : Char} :
    ∀ {s : List Char}, findChar c s = none → ∀ x ∈ s, x ≠ c := by
  intro s
  induction s with
  | nil => intro _ x hx; simp at hx
  | cons d rest ih =>
    intro h x hx
    by_cases hd : d = c
    · simp [findChar, hd] at h
    · simp [findChar, hd] at h
      rcases List.mem_cons.mp hx with rfl | hx
      · exact hd
      · exact ih h x hx

lemma findChar_append_le {c : Char} :
    ∀ (pre t' : List Char), ∃ i, findChar c (pre ++ c :: t') = some i ∧ i ≤ pre.length := by
  intro pre t'
  induction pre with
  | nil => exact ⟨0, by simp [findChar], Nat.zero_le 0⟩
  | cons d pre ih =>
    by_cases hd : d = c
    · exact ⟨0, by simp [findChar, hd], Nat.zero_le _⟩
    · obtain ⟨i, hi, hle⟩ := ih
      exact ⟨i + 1, by simp [findChar, hd, hi], by simpa using Nat.succ_le_succ hle⟩

lemma one_le_findCharD {c d : Char} (rest : List Char) (h : d ≠ c) :
    1 ≤ findCharD c (d :: rest) := by
  unfold findCharD findChar
  simp only [if_neg h]
  cases findChar c rest <;> simp [Option.getD]

lemma findCharD_le_length (c : Char) (s : List Char) : findCharD c s ≤ s.length := by
  unfold findCharD
  cases h : findChar c s with
  | none => simp
  | some i => simpa using Nat.le_of_lt (findChar_some_lt h)

lemma newTokensGo_succ_dot (fuel : Nat) (c : Char) (rest : List Char) (h1 : c = '.') :
    newTokensGo (fuel + 1) (c :: rest) =
      (newTokensGo fuel rest).map (fun ts => MatcherToken.WildCard :: ts) := by
  simp [newTokensGo, h1]

lemma newTokensGo_succ_group_none (fuel : Nat) (c : Char) (rest : List Char)
    (h1 : c ≠ '.') (h2 : c = '(') (hf : findChar ')' (c :: rest) = none) :
    newTokensGo (fuel + 1) (c :: rest) = none := by
  subst h2
  simp [newTokensGo, if_neg h1, hf]

lemma newTokensGo_succ_group_some (fuel : Nat) (c : Char) (rest : List Char) (fc : Nat)
    (h1 : c ≠ '.') (h2 : c = '(') (hf : findChar ')' (c :: rest) = some fc) :
    newTokensGo (fuel + 1) (c :: rest) =
      (newTokensGo fuel (((c :: rest).drop fc).drop 1)).map
        (fun ts => MatcherToken.OneOfText (splitPipe (((c :: rest).take fc).drop 1)) :: ts) := by
  subst h2
  simp [newTokensGo, if_neg h1, hf]

lemma newTokensGo_succ_raw (fuel : Nat) (c : Char) (rest : List Char)
    (h1 : c ≠ '.') (h2 : c ≠ '(') :
    newTokensGo (fuel + 1) (c :: rest) =
      (newTokensGo fuel
          ((c :: rest).drop (min (findCharD '.' (c :: rest)) (findCharD '(' (c :: rest))))).map
        (fun ts =>
          MatcherToken.RawText
            ((c :: rest).take (min (findCharD '.' (c :: rest)) (findCharD '(' (c :: rest)))) :: ts) := by
  simp only [newTokensGo, if_neg h1, if_neg h2]

lemma newTokensGo_rawText_ne_nil :
    ∀ (fuel : Nat) (s : List Char) (ts : List MatcherToken), s.length ≤ fuel →
      newTokensGo fuel s = some ts →
      ∀ r, MatcherToken.RawText r ∈ ts → r ≠ [] := by
  intro fuel
  induction fuel with
  | zero =>
    intro s ts hlen h r hr
    have hs : s = [] := List.eq_nil_of_length_eq_zero (Nat.le_zero.mp hlen)
    subst hs
    simp only [newTokensGo, Option.some.injEq] at h
    subst h
    simp at hr
  | succ fuel ih =>
    intro s ts hlen h r hr
    cases s with
    | nil =>
      simp only [newTokensGo, Option.some.injEq] at h
      subst h
      simp at hr
    | cons c rest =>
      have hlen' : rest.length + 1 ≤ fuel + 1 := by simpa using hlen
      by_cases h1 : c = '.'
      · rw [newTokensGo_succ_dot fuel c rest h1] at h
        cases hg : newTokensGo fuel rest with
        | none => rw [hg] at h; simp at h
        | some ts' =>
          rw [hg] at h
          simp only [Option.map_some', Option.some.injEq] at h
          subst h
          rcases List.mem_cons.mp hr with hcon | hr'
          · exact absurd hcon (by simp)
          · exact ih rest ts' (by omega) hg r hr'
      · by_cases h2 : c = '('
        · cases hf : findChar ')' (c :: rest) with
          | none => rw [newTokensGo_succ_group_none fuel c rest h1 h2 hf] at h; simp at h
          | some fc =>
            rw [newTokensGo_succ_group_some fuel c rest fc h1 h2 hf] at h
            cases hg : newTokensGo fuel (((c :: rest).drop fc).drop 1) with
            | none => rw [hg] at h; simp at h
            | some ts' =>
              rw [hg] at h
              simp only [Option.map_some', Option.some.injEq] at h
              subst h
              rcases List.mem_cons.mp hr with hcon | hr'
              · exact absurd hcon (by simp)
              · refine ih (((c :: rest).drop fc).drop 1) ts' ?_ hg r hr'
                simp only [List.drop_drop, List.length_drop, List.length_cons]
                omega
        · rw [newTokensGo_succ_raw fuel c rest h1 h2] at h
          have hwc : 1 ≤ findCharD '.' (c :: rest) := one_le_findCharD rest h1
          have hmin : 1 ≤ min (findCharD '.' (c :: rest)) (findCharD '(' (c :: rest)) :=
            le_min hwc (one_le_findCharD rest h2)
          cases hg : newTokensGo fuel
              ((c :: rest).drop (min (findCharD '.' (c :: rest)) (findCharD '(' (c :: rest)))) with
          | none => rw [hg] at h; simp at h
          | some ts' =>
            rw [hg] at h
            simp only [Option.map_some', Option.some.injEq] at h
            subst h
            rcases List.mem_cons.mp hr with hcon | hr'
            · obtain ⟨k, hk⟩ :
                  ∃ k, min (findCharD '.' (c :: rest)) (findCharD '(' (c :: rest)) = k + 1 :=
                ⟨min (findCharD '.' (c :: rest)) (findCharD '(' (c :: rest)) - 1, by omega⟩
              have hre : r =
                  (c :: rest).take (min (findCharD '.' (c :: rest)) (findCharD '(' (c :: rest))) := by
                simpa using hcon
              rw [hre, hk]
              simp
            · refine ih _ ts' ?_ hg r hr'
              simp only [List.length_drop, List.length_cons]
              omega

/-- C9: every pattern text that compiles successfully yields only non-empty
`RawText` spans: compilation never emits a zero-length raw-text segment. -/
theorem rawText_tokens_nonempty (s : List Char) (m : Matcher)
    (h : Matcher.new s = some m) :
    ∀ r, MatcherToken.RawText r ∈ m.tokens → r ≠ [] := by
  cases hn : newTokens s with
  | none => simp [Matcher.new, hn] at h
  | some ts =>
    simp only [Matcher.new, hn, Option.map_some', Option.some.injEq] at h
    subst h
    intro r hr
    exact newTokensGo_rawText_ne_nil s.length s ts le_rfl hn r hr

theorem rawText_tokens_nonempty_witness :
    (['a'] : List Char) ≠ [] :=
  rawText_tokens_nonempty ("a.".data)
    { text := "a.".data, tokens := [MatcherToken.RawText ['a'], MatcherToken.WildCard],
      most_tokens_matched := 0 } (by decide) ['a'] (by decide)

lemma suffix_of_suffix_length_le {α : Type} {t d s : List α}
    (ht : t <:+ s) (hd : d <:+ s) (hlen : t.length ≤ d.length) : t <:+ d := by
  rcases List.suffix_or_suffix_of_suffix ht hd with h | h
  · exact h
  · have heq : d = t := h.eq_of_length (Nat.le_antisymm h.length_le hlen)
    rw [heq]

lemma newTokensGo_eq_none_iff :
    ∀ (fuel : Nat) (s : List Char), s.length ≤ fuel →
      (newTokensGo fuel s = none ↔
        ∃ t, t <:+ s ∧ t.head? = some '(' ∧ ')' ∉ t) := by
  intro fuel
  induction fuel with
  | zero =>
    intro s hlen
    have hs : s = [] := List.eq_nil_of_length_eq_zero (Nat.le_zero.mp hlen)
    subst hs
    simp only [newTokensGo]
    constructor
    · intro h
      exact absurd h (by simp)
    · rintro ⟨t, hts, hhead, -⟩
      have ht : t = [] := List.suffix_nil.mp hts
      subst ht
      simp at hhead
  | succ fuel ih =>
    intro s hlen
    cases s with
    | nil =>
      simp only [newTokensGo]
      constructor
      · intro h
        exact absurd h (by simp)
      · rintro ⟨t, hts, hhead, -⟩
        have ht : t = [] := List.suffix_nil.mp hts
        subst ht
        simp at hhead
    | cons c rest =>
      have hlen' : rest.length + 1 ≤ fuel + 1 := by simpa using hlen
      by_cases h1 : c = '.'
      · rw [newTokensGo_succ_dot fuel c rest h1, Option.map_eq_none', ih rest (by omega)]
        constructor
        · rintro ⟨t, hts, hh, hnm⟩
          exact ⟨t, hts.trans (List.suffix_cons c rest), hh, hnm⟩
        · rintro ⟨t, hts, hh, hnm⟩
          refine ⟨t, ?_, hh, hnm⟩
          rcases List.suffix_cons_iff.mp hts with heq | h
          · exfalso
            rw [heq] at hh
            simp only [List.head?_cons, Option.some.injEq] at hh
            rw [h1] at hh
            exact absurd hh (by decide)
          · exact h
      · by_cases h2 : c = '('
        · cases hf : findChar ')' (c :: rest) with
          | none =>
            rw [newTokensGo_succ_group_none fuel c rest h1 h2 hf]
            constructor
            · intro _
              refine ⟨c :: rest, List.suffix_refl _, by simp [h2], ?_⟩
              intro hmem
              exact findChar_none hf ')' hmem rfl
            · intro _
              rfl
          | some fc =>
            rw [newTokensGo_succ_group_some fuel c rest fc h1 h2 hf]
            have hfc_lt : fc < (c :: rest).length := findChar_some_lt hf
            obtain ⟨tail, htail⟩ := findChar_some_drop hf
            have hlen2 : (((c :: rest).drop fc).drop 1).length ≤ fuel := by
              simp only [List.drop_drop, List.length_drop, List.length_cons]
              omega
            rw [Option.map_eq_none', ih (((c :: rest).drop fc).drop 1) hlen2]
            constructor
            · rintro ⟨t, hts, hh, hnm⟩
              refine ⟨t, ?_, hh, hnm⟩
              exact hts.trans ((List.drop_suffix 1 _).trans (List.drop_suffix fc _))
            · rintro ⟨t, hts, hh, hnm⟩
              have hdropfcs : (c :: rest).drop fc <:+ c :: rest := List.drop_suffix fc _
              have hmemdrop : ')' ∈ (c :: rest).drop fc := by
                rw [htail]
                exact List.mem_cons_self ')' tail
              have htlen : t.length + 1 ≤ (c :: rest).length - fc := by
                by_contra hcon
                push_neg at hcon
                have hdlen : ((c :: rest).drop fc).length ≤ t.length := by
                  simp only [List.length_drop]
                  omega
                have hsub : (c :: rest).drop fc <:+ t :=
                  suffix_of_suffix_length_le hdropfcs hts hdlen
                exact hnm (hsub.subset hmemdrop)
              have htsuffix : t <:+ ((c :: rest).drop fc).drop 1 := by
                apply suffix_of_suffix_length_le hts
                  ((List.drop_suffix 1 _).trans (List.drop_suffix fc _))
                simp only [List.drop_drop, List.length_drop, List.length_cons]
                simp only [List.length_cons] at htlen
                omega
              exact ⟨t, htsuffix, hh, hnm⟩
        · rw [newTokensGo_succ_raw fuel c rest h1 h2]
          have hk1 : 1 ≤ min (findCharD '.' (c :: rest)) (findCharD '(' (c :: rest)) :=
            le_min (one_le_findCharD rest h1) (one_le_findCharD rest h2)
          have hlen2 :
              ((c :: rest).drop
                (min (findCharD '.' (c :: rest)) (findCharD '(' (c :: rest)))).length ≤ fuel := by
            simp only [List.length_drop, List.length_cons]
            omega
          rw [Option.map_eq_none', ih _ hlen2]
          constructor
          · rintro ⟨t, hts, hh, hnm⟩
            exact ⟨t, hts.trans (List.drop_suffix _ _), hh, hnm⟩
          · rintro ⟨t, hts, hh, hnm⟩
            obtain ⟨x, t', rfl⟩ : ∃ x t', t = x :: t' := by
              cases t with
              | nil => simp at hh
              | cons x t' => exact ⟨x, t', rfl⟩
            have hx : x = '(' := by simpa using hh
            subst hx
            obtain ⟨pre, hpre⟩ := hts
            obtain ⟨i, hi, hile⟩ := findChar_append_le pre t'
            rw [hpre] at hi
            have hfd : findCharD '(' (c :: rest) ≤ pre.length := by
              unfold findCharD
              rw [hi]
              simpa using hile
            have hprelen : pre.length + (t'.length + 1) = rest.length + 1 := by
              have := congrArg List.length hpre
              simpa using this
            have htsuffix :
                '(' :: t' <:+
                  (c :: rest).drop
                    (min (findCharD '.' (c :: rest)) (findCharD '(' (c :: rest))) := by
              apply suffix_of_suffix_length_le ⟨pre, hpre⟩ (List.drop_suffix _ _)
              simp only [List.length_drop, List.length_cons]
              omega
            exact ⟨'(' :: t', htsuffix, by simp, hnm⟩

/-- C1 amended: `Matcher::new` fails exactly when some suffix of the
pattern begins with a `(` that is never followed by a `)` — i.e. the scan
reaches a `(` with no `)` at or after it.  A `)` occurring only before such
a `(` (out of order) does not prevent the failure, and every other pattern
text is accepted, including `OneOf` groups with zero-length alternatives
and unicode in literal segments. -/
theorem compile_fails_iff_unclosed_group (s : List Char) :
    Matcher.new s = none ↔ ∃ t, t <:+ s ∧ t.head? = some '(' ∧ ')' ∉ t := by
  rw [Matcher.new, Option.map_eq_none']
  exact newTokensGo_eq_none_iff s.length s le_rfl

lemma findChar_cons_pos {x d : Char} {rest : List Char} {i : Nat}
    (h : findChar x (d :: rest) = some i) (hd : d ≠ x) : 1 ≤ i := by
  simp [findChar, hd] at h
  obtain ⟨a, -, rfl⟩ := h
  omega

lemma newTokensCheckedGo_eq :
    ∀ (fuel : Nat) (s : List Char),
      newTokensCheckedGo fuel s = some (newTokensGo fuel s) := by
  intro fuel
  induction fuel with
  | zero =>
    intro s
    cases s <;> simp [newTokensCheckedGo, newTokensGo]
  | succ fuel ih =>
    intro s
    cases s with
    | nil => simp [newTokensCheckedGo, newTokensGo]
    | cons c rest =>
      have hc1 : 1 ≤ (c :: rest).length := by
        simp only [List.length_cons]
        omega
      by_cases h1 : c = '.'
      · rw [newTokensGo_succ_dot fuel c rest h1]
        subst h1
        simp [newTokensCheckedGo, ih rest]
      · by_cases h2 : c = '('
        · cases hf : findChar ')' (c :: rest) with
          | none =>
            rw [newTokensGo_succ_group_none fuel c rest h1 h2 hf]
            subst h2
            simp [newTokensCheckedGo, if_neg h1, hf]
          | some fc =>
            rw [newTokensGo_succ_group_some fuel c rest fc h1 h2 hf]
            have hfc_lt : fc < (c :: rest).length := findChar_some_lt hf
            have hfc_pos : 1 ≤ fc := findChar_cons_pos hf (by rw [h2]; decide)
            subst h2
            simp only [List.length_cons] at hfc_lt
            simp [newTokensCheckedGo, if_neg h1, hf, ih]
            omega
        · rw [newTokensGo_succ_raw fuel c rest h1 h2]
          have hd1 : findCharD '.' (c :: rest) ≤ (c :: rest).length :=
            findCharD_le_length _ _
          have hd2 : findCharD '(' (c :: rest) ≤ (c :: rest).length :=
            findCharD_le_length _ _
          simp only [List.length_cons] at hd1 hd2
          simp [newTokensCheckedGo, if_neg h1, if_neg h2, ih]
          omega

lemma matchLoopChecked_eq :
    ∀ (ts : List MatcherToken) (u : List Char),
      matchLoopChecked ts u = some (matchLoop ts u) := by
  intro ts
  induction ts with
  | nil => intro u; simp [matchLoopChecked, matchLoop]
  | cons t ts ih =>
    intro u
    cases u with
    | nil => simp [matchLoopChecked, matchLoop]
    | cons c rest =>
      cases t with
      | WildCard => simp [matchLoopChecked, matchLoop, ih rest]
      | OneOfText options =>
        cases hf : options.find? (fun start => isPrefixL start (c :: rest)) with
        | none => simp [matchLoopChecked, matchLoop, hf]
        | some start =>
          have hps : isPrefixL start (c :: rest) = true :=
            @List.find?_some (List Char) (fun a => isPrefixL a (c :: rest)) start options hf
          have hle : start.length ≤ (c :: rest).length :=
            ((isPrefixL_iff _ _).mp hps).length_le
          simp only [List.length_cons] at hle
          simp [matchLoopChecked, matchLoop, hf, hle, ih]
      | RawText text =>
        by_cases hp : isPrefixL text (c :: rest) = true
        · have hle : text.length ≤ (c :: rest).length :=
            ((isPrefixL_iff _ _).mp hp).length_le
          simp only [List.length_cons] at hle
          simp [matchLoopChecked, matchLoop, hp, hle, ih]
        · simp [matchLoopChecked, matchLoop, hp]

/-- C10: neither compilation nor matching can panic: in the checked model,
where every partial operation of the source (the guarded `unwrap` and every
slicing operation) has an explicit error branch, both functions always
return `some` of the unchecked result — no error branch is reachable for
any pattern text or candidate string. -/
theorem checked_model_no_panic :
    (∀ s : List Char, newTokensChecked s = some (newTokens s)) ∧
    (∀ (ts : List MatcherToken) (u : List Char),
      matchLoopChecked ts u = some (matchLoop ts u)) :=
  ⟨fun s => newTokensCheckedGo_eq s.length s, matchLoopChecked_eq⟩
